import Mathlib

/-!
Verification of the SVCS snapshot/versioning engine (src/main.go).

Strings are modelled as `List Char` (Go strings are byte slices; all data the
claims touch is ASCII, so characters stand in for bytes).  The filesystem is
modelled as an association list from full paths to file contents; `Option` is
used where the Go code calls `log.Fatal` (process termination).
-/

namespace SVCS

abbrev Str := List Char

/-- Go `strings.HasPrefix`: does `p` occur at the front of `s`? -/
def goHasPrefix : Str → Str → Bool
  | [], _ => true
  | _ :: _, [] => false
  | a :: p, b :: s => a = b && goHasPrefix p s

/-- Go `strings.TrimPrefix p s`: drop a leading occurrence of `p`, else `s` unchanged. -/
def goTrimPrefix (p s : Str) : Str :=
  if goHasPrefix p s then s.drop p.length else s

/-- Go `unicode.IsSpace` restricted to ASCII (all whitespace the program meets). -/
def goIsSpace (c : Char) : Bool :=
  c = ' ' || c = '\t' || c = '\n' || c = '\x0b' || c = '\x0c' || c = '\r'

/-- Go `strings.TrimSpace`: drop whitespace from both ends. -/
def goTrimSpace (s : Str) : Str :=
  ((s.dropWhile goIsSpace).reverse.dropWhile goIsSpace).reverse

/-- Go `strings.Split(s, "\n")`. -/
def splitNL : Str → List Str
  | [] => [[]]
  | c :: rest =>
    if c = '\n' then [] :: splitNL rest
    else
      match splitNL rest with
      | [] => [[]]
      | cur :: rs => (c :: cur) :: rs

/-- Go `strings.Split(s, "\n\n")` (leftmost, non-overlapping occurrences). -/
def splitNN : Str → List Str
  | [] => [[]]
  | [c] => [[c]]
  | a :: b :: rest =>
    if a = '\n' ∧ b = '\n' then [] :: splitNN rest
    else
      match splitNN (b :: rest) with
      | [] => [[]]
      | cur :: rs => (a :: cur) :: rs

/-- Go `filepath.Join` on the path shapes this program produces:
empty components are skipped and the rest are joined with `/`
(`Clean` is a no-op on these paths: no `.`/`..` segments, no duplicate slashes). -/
def joinPaths : List Str → Str
  | [] => []
  | p :: ps =>
    if p = [] then joinPaths ps
    else
      match joinPaths ps with
      | [] => p
      | rest => p ++ '/' :: rest

/-- The filesystem: full path ↦ regular-file content. -/
abbrev Fs := List (Str × Str)

/-- Model of `os.ReadFile` / `os.Stat` success on the flat filesystem map. -/
def lookupFs : Fs → Str → Option Str
  | [], _ => none
  | (q, c) :: rest, p => if q = p then some c else lookupFs rest p

/-- Model of `os.Create` plus write: set the file at path `p` to content `c`. -/
def setFile (p c : Str) : Fs → Fs
  | [] => [(p, c)]
  | (q, d) :: rest => if q = p then (p, c) :: rest else (q, d) :: setFile p c rest

/- ## String lemmas -/

theorem goHasPrefix_append (p s : Str) : goHasPrefix p (p ++ s) = true := by
  induction p with
  | nil => rfl
  | cons a p ih => simp [goHasPrefix, ih]

theorem goTrimPrefix_append (p s : Str) : goTrimPrefix p (p ++ s) = s := by
  simp [goTrimPrefix, goHasPrefix_append]

theorem goHasPrefix_iff (p s : Str) : goHasPrefix p s = true ↔ ∃ t, s = p ++ t := by
  induction p generalizing s with
  | nil => simp [goHasPrefix]
  | cons a p ih =>
    cases s with
    | nil => simp [goHasPrefix]
    | cons b s =>
      simp only [goHasPrefix, Bool.and_eq_true, decide_eq_true_eq, ih, List.cons_append]
      constructor
      · rintro ⟨rfl, t, rfl⟩; exact ⟨t, rfl⟩
      · rintro ⟨t, h⟩
        injection h with h1 h2
        exact ⟨h1.symm, t, h2⟩

theorem splitNL_ne_nil (s : Str) : splitNL s ≠ [] := by
  cases s with
  | nil => simp [splitNL]
  | cons c rest =>
    simp only [splitNL]
    by_cases hc : c = '\n'
    · simp [hc]
    · simp only [if_neg hc]
      cases h : splitNL rest <;> simp

/-- Splitting at the first newline when `xs` is newline-free. -/
theorem splitNL_append (xs ys : Str) (h : '\n' ∉ xs) :
    splitNL (xs ++ '\n' :: ys) = xs :: splitNL ys := by
  induction xs with
  | nil => simp [splitNL]
  | cons a xs ih =>
    have ha : a ≠ '\n' := fun hh => h (hh ▸ List.mem_cons_self a xs)
    have hx : '\n' ∉ xs := fun hh => h (List.mem_cons_of_mem a hh)
    rw [List.cons_append]
    simp only [splitNL, if_neg ha, ih hx]

/-- A newline-free string is a single line. -/
theorem splitNL_no_nl (xs : Str) (h : '\n' ∉ xs) : splitNL xs = [xs] := by
  induction xs with
  | nil => rfl
  | cons a xs ih =>
    have ha : a ≠ '\n' := fun hh => h (hh ▸ List.mem_cons_self a xs)
    have hx : '\n' ∉ xs := fun hh => h (List.mem_cons_of_mem a hh)
    simp only [splitNL, if_neg ha, ih hx]

/-- Re-joining the lines of `s`, appending a newline to each, yields `s ++ "\n"`. -/
theorem join_splitNL (s : Str) :
    ((splitNL s).map (fun l => l ++ ['\n'])).flatten = s ++ ['\n'] := by
  induction s with
  | nil => simp [splitNL]
  | cons c rest ih =>
    simp only [splitNL]
    by_cases hc : c = '\n'
    · subst hc
      rw [if_pos rfl]
      simp [ih]
    · rw [if_neg hc]
      cases h : splitNL rest with
      | nil => exact absurd h (splitNL_ne_nil rest)
      | cons cur rs =>
        rw [h] at ih
        simp only [List.map_cons, List.flatten_cons, List.cons_append,
          List.append_assoc] at ih ⊢
        rw [ih]

theorem goTrimSpace_append_nl (s : Str) : goTrimSpace (s ++ ['\n']) = goTrimSpace s := by
  simp only [goTrimSpace]
  have h1 : (s ++ ['\n']).dropWhile goIsSpace =
      if s.dropWhile goIsSpace = [] then [] else s.dropWhile goIsSpace ++ ['\n'] := by
    induction s with
    | nil => simp [List.dropWhile, goIsSpace]
    | cons a s ih =>
      by_cases ha : goIsSpace a = true
      · simpa [List.dropWhile_cons, ha] using ih
      · simp [List.dropWhile_cons, ha]
  by_cases h0 : s.dropWhile goIsSpace = []
  · rw [h1, if_pos h0, h0]
  · rw [h1, if_neg h0, List.reverse_append]
    simp [List.dropWhile_cons, goIsSpace]

/- ## SHA-256 (`crypto/sha256`)

The Go code hashes with the standard library's SHA-256.  It is embedded here
bit-for-bit over `List Nat` byte lists, with 32-bit words as `Nat` reduced
`% 2^32` where overflow matters. -/

/-- Right rotation of a 32-bit word. -/
def rotr32 (n x : Nat) : Nat := ((x >>> n) ||| (x <<< (32 - n))) % 2 ^ 32

/-- Bitwise complement of a 32-bit word. -/
def not32 (x : Nat) : Nat := x ^^^ (2 ^ 32 - 1)

def bsig0 (x : Nat) : Nat := rotr32 2 x ^^^ rotr32 13 x ^^^ rotr32 22 x
def bsig1 (x : Nat) : Nat := rotr32 6 x ^^^ rotr32 11 x ^^^ rotr32 25 x
def ssig0 (x : Nat) : Nat := rotr32 7 x ^^^ rotr32 18 x ^^^ (x >>> 3)
def ssig1 (x : Nat) : Nat := rotr32 17 x ^^^ rotr32 19 x ^^^ (x >>> 10)
def chf (x y z : Nat) : Nat := (x &&& y) ^^^ (not32 x &&& z)
def majf (x y z : Nat) : Nat := (x &&& y) ^^^ (x &&& z) ^^^ (y &&& z)

/-- SHA-256 round constants. -/
def sha256K : List Nat :=
  [1116352408, 1899447441, 3049323471, 3921009573,
   961987163, 1508970993, 2453635748, 2870763221,
   3624381080, 310598401, 607225278, 1426881987,
   1925078388, 2162078206, 2614888103, 3248222580,
   3835390401, 4022224774, 264347078, 604807628,
   770255983, 1249150122, 1555081692, 1996064986,
   2554220882, 2821834349, 2952996808, 3210313671,
   3336571891, 3584528711, 113926993, 338241895,
   666307205, 773529912, 1294757372, 1396182291,
   1695183700, 1986661051, 2177026350, 2456956037,
   2730485921, 2820302411, 3259730800, 3345764771,
   3516065817, 3600352804, 4094571909, 275423344,
   430227734, 506948616, 659060556, 883997877,
   958139571, 1322822218, 1537002063, 1747873779,
   1955562222, 2024104815, 2227730452, 2361852424,
   2428436474, 2756734187, 3204031479, 3329325298]

/-- The eight 32-bit working registers. -/
structure Hash8 where
  a : Nat
  b : Nat
  c : Nat
  d : Nat
  e : Nat
  f : Nat
  g : Nat
  h : Nat
deriving DecidableEq

/-- SHA-256 initial hash value. -/
def sha256H0 : Hash8 :=
  ⟨1779033703, 3144134277, 1013904242, 2773480762,
   1359893119, 2600822924, 528734635, 1541459225⟩

/-- One compression round, with `kw` the round constant paired with the
scheduled message word. -/
def sha256Round (st : Hash8) (kw : Nat × Nat) : Hash8 :=
  let t1 := (st.h + bsig1 st.e + chf st.e st.f st.g + kw.1 + kw.2) % 2 ^ 32
  let t2 := (bsig0 st.a + majf st.a st.b st.c) % 2 ^ 32
  ⟨(t1 + t2) % 2 ^ 32, st.a, st.b, st.c, (st.d + t1) % 2 ^ 32, st.e, st.f, st.g⟩

/-- Extend the 16 block words by `n` further scheduled words. -/
def sha256Extend (w : List Nat) : Nat → List Nat
  | 0 => w
  | n + 1 =>
    let w' := sha256Extend w n
    let len := w'.length
    w' ++ [(ssig1 (w'.getD (len - 2) 0) + w'.getD (len - 7) 0 +
            ssig0 (w'.getD (len - 15) 0) + w'.getD (len - 16) 0) % 2 ^ 32]

/-- Compress one 512-bit block (given as its 16 words) into the state. -/
def sha256Compress (st : Hash8) (w16 : List Nat) : Hash8 :=
  let w := sha256Extend w16 48
  let r := (sha256K.zip w).foldl sha256Round st
  ⟨(st.a + r.a) % 2 ^ 32, (st.b + r.b) % 2 ^ 32, (st.c + r.c) % 2 ^ 32,
   (st.d + r.d) % 2 ^ 32, (st.e + r.e) % 2 ^ 32, (st.f + r.f) % 2 ^ 32,
   (st.g + r.g) % 2 ^ 32, (st.h + r.h) % 2 ^ 32⟩

/-- Big-endian bytes of a value, fixed width `n`. -/
def beBytes : Nat → Nat → List Nat
  | 0, _ => []
  | n + 1, v => beBytes n (v / 256) ++ [v % 256]

/-- SHA-256 message padding: `0x80`, zeros to 56 mod 64, 64-bit bit length. -/
def sha256Pad (msg : List Nat) : List Nat :=
  msg ++ 0x80 :: List.replicate ((119 - msg.length % 64) % 64) 0 ++
    beBytes 8 (8 * msg.length % 2 ^ 64)

/-- Split a padded message into 64-byte chunks. -/
def chunks64 : List Nat → List (List Nat)
  | [] => []
  | c :: rest => (c :: rest).take 64 :: chunks64 ((c :: rest).drop 64)
termination_by l => l.length
decreasing_by simp; omega

/-- Group bytes into big-endian 32-bit words. -/
def bytesToWords : List Nat → List Nat
  | b0 :: b1 :: b2 :: b3 :: rest =>
    (((b0 * 256 + b1) * 256 + b2) * 256 + b3) :: bytesToWords rest
  | _ => []

/-- The 32-byte SHA-256 digest of a byte list. -/
def sha256 (msg : List Nat) : List Nat :=
  let st := (chunks64 (sha256Pad msg)).foldl
    (fun s blk => sha256Compress s (bytesToWords blk)) sha256H0
  beBytes 4 st.a ++ beBytes 4 st.b ++ beBytes 4 st.c ++ beBytes 4 st.d ++
    beBytes 4 st.e ++ beBytes 4 st.f ++ beBytes 4 st.g ++ beBytes 4 st.h

def hexDigitChars : Str := "0123456789abcdef".toList

def hexDigit (n : Nat) : Char := hexDigitChars.getD n '0'

/-- Go `fmt.Sprintf("%x", bytes)`: two lowercase hex digits per byte. -/
def bytesToHex (bs : List Nat) : Str :=
  bs.flatMap (fun b => [hexDigit (b / 16 % 16), hexDigit (b % 16)])

/-- Go byte content of a string (ASCII scope of this program). -/
def strBytes (s : Str) : List Nat := s.map Char.toNat

/-- Function `hashContent` (src/main.go:357): hex-rendered SHA-256 of the content. -/
def hashContent (content : Str) : Str := bytesToHex (sha256 (strBytes content))

/- ## Data model and operations of the VCS core (src/main.go) -/

/-- Constant "commit " (log-entry identifier line marker). -/
def commitPre : Str := ['c', 'o', 'm', 'm', 'i', 't', ' ']

/-- Constant "Author: " (log-entry author line marker). -/
def authorPre : Str := ['A', 'u', 't', 'h', 'o', 'r', ':', ' ']

/-- Constant "vcs/" (stripped from staged paths when snapshotting). -/
def vcsPre : Str := ['v', 'c', 's', '/']

/-- Constant "vcs/commits" (`commitDir`, src/main.go:37). -/
def commitDirL : Str := ['v', 'c', 's', '/', 'c', 'o', 'm', 'm', 'i', 't', 's']

/-- Constant "Commit does not exist." -/
def commitNotExistMsg : Str :=
  ['C', 'o', 'm', 'm', 'i', 't', ' ', 'd', 'o', 'e', 's', ' ', 'n', 'o', 't',
   ' ', 'e', 'x', 'i', 's', 't', '.']

/-- Constant "Switched to commit " (src/main.go:696). -/
def switchedPre : Str :=
  ['S', 'w', 'i', 't', 'c', 'h', 'e', 'd', ' ', 't', 'o', ' ', 'c', 'o', 'm',
   'm', 'i', 't', ' ']

def msgNotPassedMsg : Str := "Message was not passed.".toList
def nothingToCommitMsg : Str := "Nothing to commit.".toList
def changesCommittedMsg : Str := "Changes are committed.".toList

/-- Commit metadata (src/main.go:28). -/
structure Commit where
  HashID : Str
  Author : Str
  Message : Str
deriving DecidableEq

/-- On-disk state the core manipulates.  `fs` holds the regular files
addressed by full path (working tree and snapshot contents); the three
bookkeeping files under vcs/ are carried separately (`none` = absent);
`commitDirs` lists the ids with a directory vcs/commits/<id>. -/
structure Sys where
  fs : Fs
  indexFile : Option Str
  logFile : Option Str
  configFile : Option Str
  commitDirs : List Str
deriving DecidableEq

/- ### add -/

/-- Function isFileTracked (src/main.go:274): scan the lines of the index. -/
def isFileTracked (filePath : Str) (indexContent : Str) : Bool :=
  decide (filePath ∈ splitNL indexContent)

/-- Function createIndex (src/main.go:293): append path plus newline. -/
def createIndex (addedFile indexContent : Str) : Str :=
  indexContent ++ addedFile ++ ['\n']

inductive AddResult
  | trackedFiles
  | promptAdd
  | notFound
  | alreadyTracked
  | tracked
deriving DecidableEq

/-- Function setupAdd (src/main.go:241).  `fsHas` models `os.Stat(file)`
success; the result pairs the new index content with the reported outcome. -/
def setupAdd (file : Str) (fsHas : Bool) (indexContent : Str) : Str × AddResult :=
  if file = [] then
    if indexContent ≠ [] then (indexContent, .trackedFiles)
    else (indexContent, .promptAdd)
  else if fsHas = false then (indexContent, .notFound)
  else if isFileTracked file indexContent then (indexContent, .alreadyTracked)
  else (createIndex file indexContent, .tracked)

/-- Index content in the shape the program itself writes: each tracked path
followed by a newline. -/
def entriesJoin (es : List Str) : Str := (es.map (fun e => e ++ ['\n'])).flatten

/- ### commit -/

/-- Function isIndexEmpty (src/main.go:319): absent or zero-size index. -/
def isIndexEmpty (st : Sys) : Bool :=
  match st.indexFile with
  | none => true
  | some c => c = []

/-- Function Commit.createId (src/main.go:333): SHA-256 of the index content
with the decimal `time.Now().UnixNano()` timestamp appended. -/
def createId (indexContent : Str) (timestamp : Nat) : Option Str :=
  if indexContent = [] then none
  else some (hashContent (indexContent ++ (Nat.repr timestamp).toList))

/-- Function getLastCommitID (src/main.go:428): first log line, "commit "
marker removed; an absent log yields "".  (Its side effect of creating an
empty vcs/commits directory touches no modelled state.) -/
def getLastCommitID (logFile : Option Str) : Str :=
  match logFile with
  | none => []
  | some c =>
    match splitNL c with
    | [] => []
    | line0 :: _ => goTrimPrefix commitPre line0

/-- Function fileHasChanges (src/main.go:464); the second argument is the last
commit's id (named commitDirPath in the source).  none models log.Fatal
(current file unreadable after its snapshot counterpart was found). -/
def fileHasChanges (filePath commitDirPath : Str) (fs : Fs) : Option Bool :=
  let relativePath := goTrimPrefix commitDirL filePath
  let lastCommitFile := joinPaths [commitDirL, commitDirPath, relativePath]
  match lookupFs fs lastCommitFile with
  | some stored =>
    match lookupFs fs filePath with
    | some cur => some (decide (hashContent stored ≠ hashContent cur))
    | none => none
  | none => some true

/-- Function hasChanges (src/main.go:447): true as soon as any staged path
changed, skipping empty lines. -/
def hasChanges (filePaths : List Str) (commitDirPath : Str) (fs : Fs) : Option Bool :=
  match filePaths with
  | [] => some false
  | p :: ps =>
    if p = [] then hasChanges ps commitDirPath fs
    else
      match fileHasChanges p commitDirPath fs with
      | none => none
      | some true => some true
      | some false => hasChanges ps commitDirPath fs

/-- Function compareWithLastCommit (src/main.go:407), with the last-commit id
and the index content as explicit inputs. -/
def compareWithLastCommit (lastCommitID : Str) (indexContent : Str) (fs : Fs) :
    Option Bool :=
  if lastCommitID = [] then some true
  else hasChanges (splitNL indexContent) lastCommitID fs

/-- Loop body of copyFilesToCommitDir (src/main.go:513) over the staged
paths, each copied with copyFile (src/main.go:530).  none models log.Fatal:
a missing source file (os.Open), or a destination whose parent directory
does not exist inside the fresh snapshot directory (os.Create creates no
intermediate directories, so any slash left after trimming "vcs/" fails). -/
def copyStagedFiles (commitDirPath : Str) : List Str → Fs → Option Fs
  | [], fs => some fs
  | p :: ps, fs =>
    if p = [] then copyStagedFiles commitDirPath ps fs
    else
      match lookupFs fs p with
      | none => none
      | some content =>
        let rel := goTrimPrefix vcsPre p
        if '/' ∈ rel then none
        else
          copyStagedFiles commitDirPath ps
            (setFile (joinPaths [commitDirPath, rel]) content fs)

/-- Function copyFilesToCommitDir (src/main.go:494). -/
def copyFilesToCommitDir (commitDirPath : Str) (indexContent : Str) (fs : Fs) :
    Option Fs :=
  copyStagedFiles commitDirPath (splitNL indexContent) fs

/- ### log -/

/-- Text of one log entry (src/main.go:615):
"commit id\nAuthor: author\nmessage\n\n". -/
def commitEntry (c : Commit) : Str :=
  commitPre ++ c.HashID ++
    '\n' :: (authorPre ++ c.Author ++ '\n' :: (c.Message ++ ['\n', '\n']))

/-- Function Commit.createLog (src/main.go:613): prepend the new entry to the
existing log content (absent log = empty). -/
def createLog (c : Commit) (logFile : Option Str) : Str :=
  commitEntry c ++ logFile.getD []

/-- Author/message extraction loop of findCommitById (src/main.go:586). -/
def extractAuthorMessage (lines : List Str) : Str × Str :=
  lines.foldl
    (fun am line =>
      if goHasPrefix authorPre line then (goTrimPrefix authorPre line, am.2)
      else if goHasPrefix commitPre line then am
      else (am.1, am.2 ++ line ++ ['\n']))
    ([], [])

/-- Entry scan of findCommitById (src/main.go:577). -/
def findEntry (id : Str) : List Str → Option Commit
  | [] => none
  | entry :: rest =>
    let lines := splitNL entry
    let commitID := goTrimPrefix commitPre (lines.headD [])
    if commitID = id then
      let am := extractAuthorMessage lines
      some ⟨commitID, am.1, goTrimSpace am.2⟩
    else findEntry id rest

/-- Function findCommitById (src/main.go:560).  Outer none models log.Fatal
(snapshot directory present but log.txt unreadable); `some none` is Go's nil
result. -/
def findCommitById (id : Str) (commitDirs : List Str) (logFile : Option Str) :
    Option (Option Commit) :=
  if id ∈ commitDirs then
    match logFile with
    | none => none
    | some logContent => some (findEntry id (splitNN logContent))
  else some none

/- ### checkout -/

/-- Plain-file entries of os.ReadDir on vcs/commits/<id>: name and content of
each snapshot file directly under the snapshot root. -/
def snapshotEntries (id : Str) (fs : Fs) : List (Str × Str) :=
  fs.filterMap (fun pc =>
    let pre := commitDirL ++ '/' :: (id ++ ['/'])
    if goHasPrefix pre pc.1 ∧ '/' ∉ pc.1.drop pre.length ∧ pc.1.drop pre.length ≠ []
    then some (pc.1.drop pre.length, pc.2)
    else none)

/-- Does the snapshot of `id` contain a nested directory?  os.ReadDir would
list it as a directory entry and copyFile's io.Copy of a directory fails,
i.e. log.Fatal. -/
def snapshotHasSubdir (id : Str) (fs : Fs) : Bool :=
  fs.any (fun pc =>
    let pre := commitDirL ++ '/' :: (id ++ ['/'])
    goHasPrefix pre pc.1 && (pc.1.drop pre.length).contains '/')

/-- Function switchCommit (src/main.go:658): each snapshot file is copied to
the working tree under its bare name (filepath.Join(".", name) = name). -/
def switchCommit (id : Str) (st : Sys) : Option (Sys × Str) :=
  match findCommitById id st.commitDirs st.logFile with
  | none => none
  | some none => some (st, commitNotExistMsg)
  | some (some _) =>
    if snapshotHasSubdir id st.fs then none
    else
      let fs' := (snapshotEntries id st.fs).foldl
        (fun fs nc => setFile nc.1 nc.2 fs) st.fs
      some (⟨fs', st.indexFile, st.logFile, st.configFile, st.commitDirs⟩,
        switchedPre ++ id ++ ['.'])

/- ### commit driver -/

/-- Function getMessageFromArgs (src/main.go:389). -/
def getMessageFromArgs (args : List Str) : Str :=
  goTrimSpace (List.intercalate [' '] args)

/-- Function handleCommit (src/main.go:136) with the commit timestamp
(time.Now().UnixNano()) as an explicit input.  none models log.Fatal. -/
def handleCommit (args : List Str) (timestamp : Nat) (st : Sys) :
    Option (Sys × Str) :=
  let message := getMessageFromArgs args
  if message = [] then some (st, msgNotPassedMsg)
  else if isIndexEmpty st then some (st, nothingToCommitMsg)
  else
    match compareWithLastCommit (getLastCommitID st.logFile)
        (st.indexFile.getD []) st.fs with
    | none => none
    | some changes =>
      if changes = false then some (st, nothingToCommitMsg)
      else
        match st.configFile with
        | none => none
        | some author =>
          match createId (st.indexFile.getD []) timestamp with
          | none => none
          | some id =>
            let commitDirs' :=
              if id ∈ st.commitDirs then st.commitDirs else st.commitDirs ++ [id]
            match copyFilesToCommitDir (joinPaths [commitDirL, id])
                (st.indexFile.getD []) st.fs with
            | none => none
            | some fs' =>
              let newLog := createLog ⟨id, author, message⟩ st.logFile
              some (⟨fs', st.indexFile, some newLog, st.configFile, commitDirs'⟩,
                changesCommittedMsg)

/- ### specification-side predicates used to state the claims -/

/-- Log content has an entry whose first line carries identifier `id` (the
condition findEntry scans for). -/
def matchingEntryExists (id : Str) (logContent : Str) : Prop :=
  ∃ e ∈ splitNN logContent, goTrimPrefix commitPre ((splitNL e).headD []) = id

instance (id lc : Str) : Decidable (matchingEntryExists id lc) := by
  unfold matchingEntryExists
  exact List.decidableBEx _ _

/-- Snapshot-counterpart location that fileHasChanges checks for a staged
path (under the last commit's snapshot directory). -/
def counterpartPath (filePath commitId : Str) : Str :=
  joinPaths [commitDirL, commitId, goTrimPrefix commitDirL filePath]

/-- A staged path counts as changed: no counterpart file in the last
snapshot, or the digests differ. -/
def changedAt (filePath commitId : Str) (fs : Fs) : Prop :=
  lookupFs fs (counterpartPath filePath commitId) = none ∨
  ∃ s cur, lookupFs fs (counterpartPath filePath commitId) = some s ∧
    lookupFs fs filePath = some cur ∧ hashContent s ≠ hashContent cur

/-- A staged path is byte-identical to its snapshot counterpart. -/
def byteIdenticalAt (filePath commitId : Str) (fs : Fs) : Prop :=
  ∃ s, lookupFs fs (counterpartPath filePath commitId) = some s ∧
    lookupFs fs filePath = some s

/-- Boolean check: no two consecutive newlines anywhere in the string. -/
def noDoubleNLb : Str → Bool
  | a :: b :: t => !(a = '\n' && b = '\n') && noDoubleNLb (b :: t)
  | _ => true

/-- No two consecutive newlines anywhere in the string. -/
def noDoubleNL (s : Str) : Prop := noDoubleNLb s = true

instance (s : Str) : Decidable (noDoubleNL s) :=
  inferInstanceAs (Decidable (noDoubleNLb s = true))

/- ## Helper lemmas about the operations -/

theorem lookupFs_setFile_self (fs : Fs) (p c : Str) :
    lookupFs (setFile p c fs) p = some c := by
  induction fs with
  | nil => simp [setFile, lookupFs]
  | cons qd rest ih =>
    by_cases h : qd.1 = p
    · simp [setFile, lookupFs, h]
    · simp [setFile, lookupFs, h, ih]

theorem lookupFs_setFile_ne (fs : Fs) (p c q : Str) (h : q ≠ p) :
    lookupFs (setFile p c fs) q = lookupFs fs q := by
  induction fs with
  | nil =>
    simp only [setFile, lookupFs]
    rw [if_neg (fun hh => h hh.symm)]
  | cons qd rest ih =>
    by_cases h1 : qd.1 = p
    · simp only [setFile, if_pos h1, lookupFs]
      rw [if_neg (fun hh => h hh.symm), if_neg (h1 ▸ fun hh => h hh.symm)]
    · simp only [setFile, if_neg h1, lookupFs, ih]

theorem joinPaths_pair (a b : Str) (ha : a ≠ []) (hb : b ≠ []) :
    joinPaths [a, b] = a ++ '/' :: b := by
  cases b with
  | nil => exact absurd rfl hb
  | cons c t => simp [joinPaths, ha]

theorem joinPaths_pair_nil (a : Str) : joinPaths [a, []] = a := by
  by_cases ha : a = [] <;> simp [joinPaths, ha]

theorem joinPaths_cons (a : Str) (ps : List Str) (ha : a ≠ [])
    (hps : joinPaths ps ≠ []) : joinPaths (a :: ps) = a ++ '/' :: joinPaths ps := by
  cases h : joinPaths ps with
  | nil => exact absurd h hps
  | cons c t => simp [joinPaths, ha, h]

/- ## C7: commit with an empty staging index -/

/-- C7: a commit attempted with a (nonempty) message but an empty staging
index is rejected with the report "Nothing to commit." and the rejection is
atomic: the state — snapshot directories, log, every file — is returned
unchanged. -/
theorem c7_empty_index_commit_rejected (args : List Str) (ts : Nat) (st : Sys)
    (hmsg : getMessageFromArgs args ≠ []) (hempty : isIndexEmpty st = true) :
    handleCommit args ts st = some (st, nothingToCommitMsg) := by
  unfold handleCommit
  simp [hmsg, hempty]

theorem c7_empty_index_commit_rejected_witness :
    getMessageFromArgs ["first".toList] ≠ [] ∧
    isIndexEmpty ⟨[], some [], none, some [], []⟩ = true ∧
    handleCommit ["first".toList] 0 ⟨[], some [], none, some [], []⟩ =
      some (⟨[], some [], none, some [], []⟩, nothingToCommitMsg) :=
  ⟨by decide, by decide,
   c7_empty_index_commit_rejected ["first".toList] 0 _ (by decide) (by decide)⟩

/- ## C5: commit log is newest-first -/

theorem getLastCommitID_createLog (c : Commit) (lf : Option Str)
    (h : '\n' ∉ c.HashID) :
    getLastCommitID (some (createLog c lf)) = c.HashID := by
  have hpre : '\n' ∉ commitPre := by decide
  have hnl : '\n' ∉ commitPre ++ c.HashID := by
    intro hm
    rcases List.mem_append.1 hm with h1 | h1
    · exact hpre h1
    · exact h h1
  have hs : createLog c lf =
      (commitPre ++ c.HashID) ++ '\n' ::
        ((authorPre ++ c.Author ++ '\n' :: (c.Message ++ ['\n', '\n'])) ++
          lf.getD []) := by
    simp [createLog, commitEntry, List.append_assoc]
  rw [getLastCommitID, hs, splitNL_append _ _ hnl]
  exact goTrimPrefix_append commitPre c.HashID

/-- C5: the log is kept newest-first: createLog prepends, so after commits c1
then c2 the log is exactly c2's entry, then c1's entry, then the older
content, and getLastCommitID reads back c2's identifier from the first line. -/
theorem c5_log_newest_first (c1 c2 : Commit) (lf : Option Str)
    (h2 : '\n' ∉ c2.HashID) :
    createLog c2 (some (createLog c1 lf)) =
      commitEntry c2 ++ (commitEntry c1 ++ lf.getD []) ∧
    getLastCommitID (some (createLog c2 (some (createLog c1 lf)))) = c2.HashID := by
  refine ⟨?_, getLastCommitID_createLog c2 _ h2⟩
  simp [createLog]

theorem c5_log_newest_first_witness :
    '\n' ∉ ("b2".toList : Str) ∧
    (createLog ⟨"b2".toList, "u".toList, "m2".toList⟩
        (some (createLog ⟨"a1".toList, "u".toList, "m1".toList⟩ none)) =
      commitEntry ⟨"b2".toList, "u".toList, "m2".toList⟩ ++
        (commitEntry ⟨"a1".toList, "u".toList, "m1".toList⟩ ++ ([] : Str)) ∧
    getLastCommitID (some (createLog ⟨"b2".toList, "u".toList, "m2".toList⟩
        (some (createLog ⟨"a1".toList, "u".toList, "m1".toList⟩ none)))) =
      "b2".toList) :=
  ⟨by decide,
   c5_log_newest_first ⟨"a1".toList, "u".toList, "m1".toList⟩
     ⟨"b2".toList, "u".toList, "m2".toList⟩ none (by decide)⟩

/- ## C1: checkout failure condition -/

theorem findEntry_eq_none_iff (id : Str) (es : List Str) :
    findEntry id es = none ↔
      ∀ e ∈ es, goTrimPrefix commitPre ((splitNL e).headD []) ≠ id := by
  simp only [List.headD_eq_head?]
  induction es with
  | nil => simp [findEntry]
  | cons e es ih =>
    simp only [findEntry, List.headD_eq_head?]
    by_cases he : goTrimPrefix commitPre ((splitNL e).head?.getD []) = id
    · simp [he]
    · simp [he, ih]

theorem switched_ne_notexist (t : Str) : switchedPre ++ t ≠ commitNotExistMsg := by
  intro h
  simp [switchedPre, commitNotExistMsg] at h

theorem findCommitById_some_none_iff (id : Str) (dirs : List Str) (lc : Str) :
    findCommitById id dirs (some lc) = some none ↔
      ¬(id ∈ dirs ∧ matchingEntryExists id lc) := by
  unfold findCommitById
  by_cases hd : id ∈ dirs
  · rw [if_pos hd]
    show some (findEntry id (splitNN lc)) = some none ↔ _
    cases hfe : findEntry id (splitNN lc) with
    | none =>
      have hall := (findEntry_eq_none_iff id (splitNN lc)).1 hfe
      simp only [eq_self_iff_true, true_iff]
      intro hcon
      obtain ⟨-, hm⟩ := hcon
      unfold matchingEntryExists at hm
      obtain ⟨e, he, hme⟩ := hm
      exact hall e he hme
    | some cm =>
      have hex : matchingEntryExists id lc := by
        by_contra hne
        unfold matchingEntryExists at hne
        push_neg at hne
        rw [(findEntry_eq_none_iff id (splitNN lc)).2 hne] at hfe
        exact Option.noConfusion hfe
      simp [hfe, hd, hex]
  · rw [if_neg hd]
    simp [hd]

theorem switchCommit_notfound_iff (id : Str) (st : Sys) :
    (switchCommit id st).map Prod.snd = some commitNotExistMsg ↔
      findCommitById id st.commitDirs st.logFile = some none := by
  unfold switchCommit
  cases h : findCommitById id st.commitDirs st.logFile with
  | none => simp
  | some o =>
    cases o with
    | none => simp
    | some cm =>
      by_cases hsub : snapshotHasSubdir id st.fs
      · simp [hsub]
      · simp [hsub, List.append_assoc, switched_ne_notexist]

/-- C1 counterexample: the identifier "abc" has a matching entry in log.txt
(though no snapshot directory), so under the claim checkout must not report
"Commit does not exist." for it — yet the code does report exactly that. -/
theorem c1_counterexample :
    matchingEntryExists "abc".toList "commit abc\nAuthor: al\nm\n\n".toList ∧
    switchCommit "abc".toList
        ⟨[], none, some "commit abc\nAuthor: al\nm\n\n".toList, none, []⟩ =
      some (⟨[], none, some "commit abc\nAuthor: al\nm\n\n".toList, none, []⟩,
        commitNotExistMsg) := by
  constructor
  · decide
  · decide

/-- C1 amended: with log.txt readable, checkout reports "Commit does not
exist." exactly when the identifier lacks a snapshot directory under
vcs/commits or lacks a matching entry in log.txt — failing either one
triggers the report, not only failing both. -/
theorem c1_amended_checkout_failure (id : Str) (st : Sys) (lc : Str)
    (hlog : st.logFile = some lc) :
    (switchCommit id st).map Prod.snd = some commitNotExistMsg ↔
      ¬(id ∈ st.commitDirs ∧ matchingEntryExists id lc) := by
  rw [switchCommit_notfound_iff, hlog, findCommitById_some_none_iff]

theorem c1_amended_checkout_failure_witness :
    (Sys.mk [] none (some "x".toList) none ["abc".toList]).logFile =
      some "x".toList ∧
    ((switchCommit "abc".toList
        (Sys.mk [] none (some "x".toList) none ["abc".toList])).map Prod.snd =
          some commitNotExistMsg ↔
      ¬("abc".toList ∈ (Sys.mk [] none (some "x".toList) none
          ["abc".toList]).commitDirs ∧
        matchingEntryExists "abc".toList "x".toList)) :=
  ⟨rfl, c1_amended_checkout_failure "abc".toList _ "x".toList rfl⟩

/- ## C2: snapshot path layout -/

theorem goTrimPrefix_of_neg (p s : Str) (h : goHasPrefix p s = false) :
    goTrimPrefix p s = s := by
  simp [goTrimPrefix, h]

theorem joinPaths_pair_inj (root a b : Str) (hroot : root ≠ [])
    (h : joinPaths [root, a] = joinPaths [root, b]) : a = b := by
  cases a with
  | nil =>
    cases b with
    | nil => rfl
    | cons c t =>
      rw [joinPaths_pair_nil, joinPaths_pair root (c :: t) hroot (by simp)] at h
      have := congrArg List.length h
      simp at this
  | cons c t =>
    cases b with
    | nil =>
      rw [joinPaths_pair_nil, joinPaths_pair root (c :: t) hroot (by simp)] at h
      have := congrArg List.length h
      simp at this
    | cons d u =>
      rw [joinPaths_pair root (c :: t) hroot (by simp),
        joinPaths_pair root (d :: u) hroot (by simp)] at h
      have h2 := List.append_cancel_left h
      simpa using h2

theorem copyStaged_success_no_slash (root : Str) (ps : List Str) (fs fs' : Fs)
    (h : copyStagedFiles root ps fs = some fs') :
    ∀ p ∈ ps, p ≠ [] → '/' ∉ goTrimPrefix vcsPre p := by
  induction ps generalizing fs with
  | nil => intro p hp; simp at hp
  | cons q ps ih =>
    intro p hp hne
    by_cases hq : q = []
    · rw [copyStagedFiles, if_pos hq] at h
      rcases List.mem_cons.1 hp with rfl | hp'
      · exact absurd hq hne
      · exact ih fs h p hp' hne
    · rw [copyStagedFiles, if_neg hq] at h
      cases hl : lookupFs fs q with
      | none =>
        simp only [hl] at h
        exact Option.noConfusion h
      | some content =>
        simp only [hl] at h
        by_cases hs : '/' ∈ goTrimPrefix vcsPre q
        · rw [if_pos hs] at h
          exact Option.noConfusion h
        · rw [if_neg hs] at h
          rcases List.mem_cons.1 hp with rfl | hp'
          · exact hs
          · exact ih _ h p hp' hne

theorem copyStaged_frame (root : Str) (ps : List Str) (fs fs' : Fs) (x : Str)
    (h : copyStagedFiles root ps fs = some fs')
    (hx : ∀ q ∈ ps, q ≠ [] → x ≠ joinPaths [root, goTrimPrefix vcsPre q]) :
    lookupFs fs' x = lookupFs fs x := by
  induction ps generalizing fs with
  | nil =>
    rw [copyStagedFiles] at h
    injection h with h
    rw [h]
  | cons q ps ih =>
    by_cases hq : q = []
    · rw [copyStagedFiles, if_pos hq] at h
      exact ih fs h (fun q' hq' => hx q' (List.mem_cons_of_mem q hq'))
    · rw [copyStagedFiles, if_neg hq] at h
      cases hl : lookupFs fs q with
      | none =>
        simp only [hl] at h
        exact Option.noConfusion h
      | some content =>
        simp only [hl] at h
        by_cases hs : '/' ∈ goTrimPrefix vcsPre q
        · rw [if_pos hs] at h
          exact Option.noConfusion h
        · rw [if_neg hs] at h
          rw [ih _ h (fun q' hq' => hx q' (List.mem_cons_of_mem q hq'))]
          exact lookupFs_setFile_ne fs _ content x
            (hx q (List.mem_cons_self q ps) hq)

theorem copyStaged_dest (root r : Str) (hroot : root = vcsPre ++ r)
    (hr : '/' ∈ r) (ps : List Str) (fs fs' : Fs)
    (h : copyStagedFiles root ps fs = some fs')
    (hnd : ((ps.filter (fun p => p ≠ [])).map (goTrimPrefix vcsPre)).Nodup) :
    ∀ p ∈ ps, p ≠ [] →
      lookupFs fs' (joinPaths [root, goTrimPrefix vcsPre p]) = lookupFs fs p := by
  have hrootne : root ≠ [] := by
    rw [hroot]
    simp [vcsPre]
  -- any destination path has a slash in its own trimmed form
  have hdest_slash : ∀ a : Str, '/' ∈ goTrimPrefix vcsPre (joinPaths [root, a]) := by
    intro a
    cases ha : a with
    | nil =>
      rw [joinPaths_pair_nil, hroot, goTrimPrefix_append]
      exact hr
    | cons c t =>
      rw [joinPaths_pair root (c :: t) hrootne (by simp), hroot,
        List.append_assoc, goTrimPrefix_append]
      exact List.mem_append.2 (Or.inl hr)
  induction ps generalizing fs with
  | nil => intro p hp; simp at hp
  | cons q ps ih =>
    intro p hp hne
    by_cases hq : q = []
    · rw [copyStagedFiles, if_pos hq] at h
      rw [hq] at hnd
      simp only [List.filter_cons, decide_not] at hnd
      rcases List.mem_cons.1 hp with rfl | hp'
      · exact absurd hq hne
      · exact ih fs h (by simpa using hnd) p hp' hne
    · rw [copyStagedFiles, if_neg hq] at h
      cases hl : lookupFs fs q with
      | none =>
        simp only [hl] at h
        exact Option.noConfusion h
      | some content =>
        simp only [hl] at h
        by_cases hs : '/' ∈ goTrimPrefix vcsPre q
        · rw [if_pos hs] at h
          exact Option.noConfusion h
        · rw [if_neg hs] at h
          have hndc : (goTrimPrefix vcsPre q ::
              ((ps.filter (fun p => p ≠ [])).map (goTrimPrefix vcsPre))).Nodup := by
            simpa [List.filter_cons, hq] using hnd
          rcases List.mem_cons.1 hp with rfl | hp'
          · -- the freshly written destination survives the remaining copies
            have hfr : lookupFs fs'
                (joinPaths [root, goTrimPrefix vcsPre p]) =
                lookupFs (setFile (joinPaths [root, goTrimPrefix vcsPre p])
                  content fs) (joinPaths [root, goTrimPrefix vcsPre p]) := by
              refine copyStaged_frame root ps _ fs' _ h ?_
              intro q' hq' hq'ne heq
              have : goTrimPrefix vcsPre p = goTrimPrefix vcsPre q' :=
                joinPaths_pair_inj root _ _ hrootne heq
              have hmem : goTrimPrefix vcsPre q' ∈
                  (ps.filter (fun p => p ≠ [])).map (goTrimPrefix vcsPre) :=
                List.mem_map_of_mem _ (List.mem_filter.2 ⟨hq', by simpa using hq'ne⟩)
              rw [this] at hndc
              exact (List.nodup_cons.1 hndc).1 hmem
            rw [hfr, lookupFs_setFile_self, hl]
          · -- a later staged source is never the destination just written
            have hps : p ≠ joinPaths [root, goTrimPrefix vcsPre q] := by
              intro heq
              have := copyStaged_success_no_slash root ps _ fs' h p hp' hne
              rw [heq] at this
              exact this (hdest_slash _)
            rw [ih _ h (List.Nodup.of_cons hndc) p hp' hne,
              lookupFs_setFile_ne fs _ content p hps]

/-- C2 counterexample: the staged path "vcs/config.txt" names a real file,
the commit succeeds, but the snapshot stores it at "config.txt" — the
staged relative path is not preserved under the snapshot root. -/
theorem c2_counterexample :
    (copyFilesToCommitDir "vcs/commits/h1".toList "vcs/config.txt\n".toList
        [("vcs/config.txt".toList, "alice".toList)]).map
      (fun fs => (lookupFs fs "vcs/commits/h1/config.txt".toList,
                  lookupFs fs "vcs/commits/h1/vcs/config.txt".toList)) =
      some (some "alice".toList, none) := by decide

/-- C2 amended: on every successful commit, each staged path p is copied into
the snapshot at the relative location TrimPrefix(p, "vcs/") — so the staged
relative layout is preserved exactly for paths not beginning with "vcs/"
(staged paths whose trimmed form still contains a separator abort the commit,
since no intermediate snapshot directories are created; distinct staged
paths are assumed to map to distinct trimmed names). -/
theorem c2_amended_snapshot_layout (root r idx : Str) (fs fs' : Fs)
    (hroot : root = vcsPre ++ r) (hr : '/' ∈ r)
    (hnd : (((splitNL idx).filter (fun p => p ≠ [])).map
        (goTrimPrefix vcsPre)).Nodup)
    (hsucc : copyFilesToCommitDir root idx fs = some fs') :
    ∀ p ∈ splitNL idx, p ≠ [] →
      lookupFs fs' (joinPaths [root, goTrimPrefix vcsPre p]) = lookupFs fs p ∧
      (goHasPrefix vcsPre p = false →
        lookupFs fs' (joinPaths [root, p]) = lookupFs fs p) := by
  intro p hp hne
  have h1 := copyStaged_dest root r hroot hr (splitNL idx) fs fs' hsucc hnd p hp hne
  refine ⟨h1, fun hnp => ?_⟩
  have he : joinPaths [root, p] = joinPaths [root, goTrimPrefix vcsPre p] := by
    rw [goTrimPrefix_of_neg vcsPre p hnp]
  rw [he]
  exact h1

theorem c2_amended_snapshot_layout_witness :
    ("vcs/commits/h1".toList : Str) = vcsPre ++ "commits/h1".toList ∧
    '/' ∈ "commits/h1".toList ∧
    ((((splitNL "a.txt\n".toList).filter (fun p => p ≠ [])).map
        (goTrimPrefix vcsPre)).Nodup) ∧
    copyFilesToCommitDir "vcs/commits/h1".toList "a.txt\n".toList
        [("a.txt".toList, "x".toList)] =
      some [("a.txt".toList, "x".toList),
            ("vcs/commits/h1/a.txt".toList, "x".toList)] ∧
    (∀ p ∈ splitNL "a.txt\n".toList, p ≠ [] →
      lookupFs [("a.txt".toList, "x".toList),
            ("vcs/commits/h1/a.txt".toList, "x".toList)]
          (joinPaths ["vcs/commits/h1".toList, goTrimPrefix vcsPre p]) =
        lookupFs [("a.txt".toList, "x".toList)] p ∧
      (goHasPrefix vcsPre p = false →
        lookupFs [("a.txt".toList, "x".toList),
            ("vcs/commits/h1/a.txt".toList, "x".toList)]
            (joinPaths ["vcs/commits/h1".toList, p]) =
          lookupFs [("a.txt".toList, "x".toList)] p)) :=
  ⟨by decide, by decide, by decide, by decide,
   c2_amended_snapshot_layout "vcs/commits/h1".toList "commits/h1".toList
     "a.txt\n".toList [("a.txt".toList, "x".toList)] _
     (by decide) (by decide) (by decide) (by decide)⟩

/- ## C8 and C3: checkout frame and restore fidelity -/

theorem foldl_setFile_frame (es : List (Str × Str)) (fs : Fs) (p : Str)
    (hp : p ∉ es.map Prod.fst) :
    lookupFs (es.foldl (fun f nc => setFile nc.1 nc.2 f) fs) p = lookupFs fs p := by
  induction es generalizing fs with
  | nil => rfl
  | cons nc es ih =>
    simp only [List.map_cons, List.mem_cons, not_or] at hp
    rw [List.foldl_cons, ih _ hp.2, lookupFs_setFile_ne fs nc.1 nc.2 p hp.1]

theorem foldl_setFile_mem (es : List (Str × Str)) (fs : Fs) (n c : Str)
    (hnd : (es.map Prod.fst).Nodup) (hm : (n, c) ∈ es) :
    lookupFs (es.foldl (fun f nc => setFile nc.1 nc.2 f) fs) n = some c := by
  induction es generalizing fs with
  | nil => simp at hm
  | cons nc es ih =>
    simp only [List.map_cons, List.nodup_cons] at hnd
    rcases List.mem_cons.1 hm with rfl | hm'
    · rw [List.foldl_cons, foldl_setFile_frame es _ n (by simpa using hnd.1)]
      exact lookupFs_setFile_self fs n c
    · rw [List.foldl_cons]
      exact ih (setFile nc.1 nc.2 fs) hnd.2 hm'

/-- C8: checkout overwrites only working-tree files whose names match files
stored in the target snapshot; any path whose name is not among the snapshot
entries has exactly the same content (or absence) before and after. -/
theorem c8_checkout_frame (id : Str) (st st' : Sys) (out : Str)
    (hs : switchCommit id st = some (st', out)) (p : Str)
    (hp : p ∉ (snapshotEntries id st.fs).map Prod.fst) :
    lookupFs st'.fs p = lookupFs st.fs p := by
  unfold switchCommit at hs
  cases h : findCommitById id st.commitDirs st.logFile with
  | none => rw [h] at hs; exact Option.noConfusion hs
  | some o =>
    rw [h] at hs
    cases o with
    | none =>
      simp only [Option.some.injEq, Prod.mk.injEq] at hs
      rw [← hs.1]
    | some cm =>
      by_cases hsub : snapshotHasSubdir id st.fs
      · rw [if_pos hsub] at hs
        exact Option.noConfusion hs
      · rw [if_neg hsub] at hs
        simp only [Option.some.injEq, Prod.mk.injEq] at hs
        rw [← hs.1]
        exact foldl_setFile_frame _ _ p hp

theorem c8_checkout_frame_witness :
    switchCommit "h".toList
        ⟨[("vcs/commits/h/a.txt".toList, "x".toList), ("b.txt".toList, "y".toList)],
         none, some "commit h\nAuthor: al\nm\n\n".toList, none, ["h".toList]⟩ =
      some (⟨[("vcs/commits/h/a.txt".toList, "x".toList),
              ("b.txt".toList, "y".toList), ("a.txt".toList, "x".toList)],
             none, some "commit h\nAuthor: al\nm\n\n".toList, none, ["h".toList]⟩,
        switchedPre ++ "h".toList ++ ['.']) ∧
    "b.txt".toList ∉ (snapshotEntries "h".toList
        [("vcs/commits/h/a.txt".toList, "x".toList),
         ("b.txt".toList, "y".toList)]).map Prod.fst ∧
    lookupFs [("vcs/commits/h/a.txt".toList, "x".toList),
              ("b.txt".toList, "y".toList), ("a.txt".toList, "x".toList)]
        "b.txt".toList =
      lookupFs [("vcs/commits/h/a.txt".toList, "x".toList),
              ("b.txt".toList, "y".toList)] "b.txt".toList :=
  ⟨by decide, by decide,
   c8_checkout_frame "h".toList
     ⟨[("vcs/commits/h/a.txt".toList, "x".toList), ("b.txt".toList, "y".toList)],
      none, some "commit h\nAuthor: al\nm\n\n".toList, none, ["h".toList]⟩
     ⟨[("vcs/commits/h/a.txt".toList, "x".toList),
       ("b.txt".toList, "y".toList), ("a.txt".toList, "x".toList)],
      none, some "commit h\nAuthor: al\nm\n\n".toList, none, ["h".toList]⟩
     (switchedPre ++ "h".toList ++ ['.']) (by decide) "b.txt".toList (by decide)⟩

/-- C3: restore fidelity.  For a checkout that restores (it did not report a
missing commit), every file stored in the snapshot reappears in the working
tree under its snapshot name with exactly the stored bytes, so re-hashing
each restored file yields precisely the digest of the stored file. -/
theorem c3_restore_fidelity (id : Str) (st st' : Sys) (out : Str)
    (hs : switchCommit id st = some (st', out)) (hout : out ≠ commitNotExistMsg)
    (hnd : ((snapshotEntries id st.fs).map Prod.fst).Nodup)
    (n c : Str) (hmem : (n, c) ∈ snapshotEntries id st.fs) :
    lookupFs st'.fs n = some c ∧
    (lookupFs st'.fs n).map hashContent = some (hashContent c) := by
  unfold switchCommit at hs
  cases h : findCommitById id st.commitDirs st.logFile with
  | none => rw [h] at hs; exact Option.noConfusion hs
  | some o =>
    rw [h] at hs
    cases o with
    | none =>
      simp only [Option.some.injEq, Prod.mk.injEq] at hs
      exact absurd hs.2.symm hout
    | some cm =>
      by_cases hsub : snapshotHasSubdir id st.fs
      · rw [if_pos hsub] at hs
        exact Option.noConfusion hs
      · rw [if_neg hsub] at hs
        simp only [Option.some.injEq, Prod.mk.injEq] at hs
        rw [← hs.1]
        have hres := foldl_setFile_mem (snapshotEntries id st.fs) st.fs n c hnd hmem
        exact ⟨hres, by rw [hres]; rfl⟩

theorem c3_restore_fidelity_witness :
    switchCommit "h".toList
        ⟨[("vcs/commits/h/a.txt".toList, "x".toList), ("a.txt".toList, "y".toList)],
         none, some "commit h\nAuthor: al\nm\n\n".toList, none, ["h".toList]⟩ =
      some (⟨[("vcs/commits/h/a.txt".toList, "x".toList),
              ("a.txt".toList, "x".toList)],
             none, some "commit h\nAuthor: al\nm\n\n".toList, none, ["h".toList]⟩,
        switchedPre ++ "h".toList ++ ['.']) ∧
    switchedPre ++ "h".toList ++ ['.'] ≠ commitNotExistMsg ∧
    ((snapshotEntries "h".toList
        [("vcs/commits/h/a.txt".toList, "x".toList),
         ("a.txt".toList, "y".toList)]).map Prod.fst).Nodup ∧
    ("a.txt".toList, "x".toList) ∈ snapshotEntries "h".toList
        [("vcs/commits/h/a.txt".toList, "x".toList), ("a.txt".toList, "y".toList)] ∧
    (lookupFs [("vcs/commits/h/a.txt".toList, "x".toList),
               ("a.txt".toList, "x".toList)] "a.txt".toList =
        some "x".toList ∧
      (lookupFs [("vcs/commits/h/a.txt".toList, "x".toList),
               ("a.txt".toList, "x".toList)] "a.txt".toList).map hashContent =
        some (hashContent "x".toList)) :=
  ⟨by decide, by decide, by decide, by decide,
   c3_restore_fidelity "h".toList
     ⟨[("vcs/commits/h/a.txt".toList, "x".toList), ("a.txt".toList, "y".toList)],
      none, some "commit h\nAuthor: al\nm\n\n".toList, none, ["h".toList]⟩
     ⟨[("vcs/commits/h/a.txt".toList, "x".toList), ("a.txt".toList, "x".toList)],
      none, some "commit h\nAuthor: al\nm\n\n".toList, none, ["h".toList]⟩
     (switchedPre ++ "h".toList ++ ['.']) (by decide) (by decide) (by decide)
     "a.txt".toList "x".toList (by decide)⟩

/- ## C9: commit identifier derivation -/

theorem beBytes_length (n v : Nat) : (beBytes n v).length = n := by
  induction n generalizing v with
  | zero => rfl
  | succ n ih => simp [beBytes, ih]

theorem sha256_length (msg : List Nat) : (sha256 msg).length = 32 := by
  unfold sha256
  simp [beBytes_length]

theorem bytesToHex_length (bs : List Nat) : (bytesToHex bs).length = 2 * bs.length := by
  induction bs with
  | nil => rfl
  | cons b bs ih =>
    simp only [bytesToHex, List.flatMap_cons] at ih ⊢
    simp [ih]
    ring

theorem hexDigit_mem (k : Nat) : hexDigit (k % 16) ∈ hexDigitChars := by
  have hk : k % 16 < 16 := Nat.mod_lt k (by norm_num)
  have hall : ∀ m, m < 16 → hexDigit m ∈ hexDigitChars := by decide
  exact hall _ hk

theorem bytesToHex_mem (bs : List Nat) : ∀ ch ∈ bytesToHex bs, ch ∈ hexDigitChars := by
  induction bs with
  | nil => intro ch h; simp [bytesToHex] at h
  | cons b bs ih =>
    intro ch h
    simp only [bytesToHex, List.flatMap_cons, List.mem_append] at h
    rcases h with h | h
    · rcases List.mem_cons.1 h with rfl | h2
      · exact hexDigit_mem _
      · rcases List.mem_cons.1 h2 with rfl | h3
        · exact hexDigit_mem _
        · simp at h3
    · exact ih ch h

/-- C9: the commit identifier of a nonempty index is the SHA-256 digest of
the index file content concatenated with the decimal timestamp — a function
of exactly those bytes — rendered as a fixed-length 64-character lowercase
hexadecimal string. -/
theorem c9_commit_id_derivation (idx : Str) (ts : Nat) (hne : idx ≠ []) :
    createId idx ts =
      some (bytesToHex (sha256 (strBytes (idx ++ (Nat.repr ts).toList)))) ∧
    ∀ s, createId idx ts = some s →
      s.length = 64 ∧ ∀ ch ∈ s, ch ∈ hexDigitChars := by
  constructor
  · rw [createId, if_neg hne, hashContent]
  · intro s hs
    rw [createId, if_neg hne] at hs
    injection hs with hs
    constructor
    · rw [← hs, hashContent, bytesToHex_length, sha256_length]
    · rw [← hs]
      exact bytesToHex_mem _

theorem c9_commit_id_derivation_witness :
    ("a.txt\n".toList : Str) ≠ [] ∧
    (createId "a.txt\n".toList 0 =
        some (bytesToHex (sha256 (strBytes ("a.txt\n".toList ++
          (Nat.repr 0).toList)))) ∧
      ∀ s, createId "a.txt\n".toList 0 = some s →
        s.length = 64 ∧ ∀ ch ∈ s, ch ∈ hexDigitChars) :=
  ⟨by decide, c9_commit_id_derivation "a.txt\n".toList 0 (by decide)⟩

/- ## C6: staging idempotence -/

theorem splitNL_entriesJoin (es : List Str) (hes : ∀ e ∈ es, '\n' ∉ e) :
    splitNL (entriesJoin es) = es ++ [[]] := by
  induction es with
  | nil => rfl
  | cons e es ih =>
    have he : '\n' ∉ e := hes e (List.mem_cons_self e es)
    have hrest : ∀ e' ∈ es, '\n' ∉ e' := fun e' h' => hes e' (List.mem_cons_of_mem e h')
    show splitNL (((e :: es).map (fun x => x ++ ['\n'])).flatten) = _
    simp only [List.map_cons, List.flatten_cons, List.append_assoc,
      List.singleton_append]
    rw [splitNL_append e _ he]
    rw [show ((es.map (fun x => x ++ ['\n'])).flatten : Str) = entriesJoin es from rfl,
      ih hrest]
    rfl

theorem entriesJoin_append_one (es : List Str) (f : Str) :
    entriesJoin es ++ (f ++ ['\n']) = entriesJoin (es ++ [f]) := by
  simp [entriesJoin]

/-- C6: staging is idempotent on membership.  Starting from an index the
program itself wrote (newline-terminated entries), a not-yet-tracked path f
is accepted; afterwards f occurs exactly once among the index lines, and
every further stage(f) call reports already-tracked and leaves the index
content exactly as it was, no matter how often it is repeated. -/
theorem c6_staging_idempotent (es : List Str) (f : Str)
    (hes : ∀ e ∈ es, '\n' ∉ e) (hf : '\n' ∉ f) (hne : f ≠ [])
    (hnotin : f ∉ es) :
    (setupAdd f true (entriesJoin es)).2 = AddResult.tracked ∧
    (splitNL (setupAdd f true (entriesJoin es)).1).count f = 1 ∧
    (setupAdd f true (setupAdd f true (entriesJoin es)).1).2 =
      AddResult.alreadyTracked ∧
    ∀ n : Nat,
      (fun i => (setupAdd f true i).1)^[n]
          (setupAdd f true (entriesJoin es)).1 =
        (setupAdd f true (entriesJoin es)).1 := by
  have hsplit := splitNL_entriesJoin es hes
  have htr : isFileTracked f (entriesJoin es) = false := by
    simp only [isFileTracked, hsplit, decide_eq_false_iff_not, List.mem_append,
      List.mem_singleton]
    rintro (h | h)
    · exact hnotin h
    · exact hne h
  have hstep : (setupAdd f true (entriesJoin es)).1 = entriesJoin (es ++ [f]) := by
    rw [setupAdd, if_neg (by simp [hne]), if_neg (by simp), htr]
    simp [createIndex, entriesJoin_append_one]
  have hes' : ∀ e ∈ es ++ [f], '\n' ∉ e := by
    intro e he
    rcases List.mem_append.1 he with h | h
    · exact hes e h
    · rw [List.mem_singleton.1 h]
      exact hf
  have hsplit' := splitNL_entriesJoin (es ++ [f]) hes'
  have htr' : isFileTracked f (entriesJoin (es ++ [f])) = true := by
    simp [isFileTracked, hsplit']
  have hfix : (setupAdd f true (entriesJoin (es ++ [f]))).1 =
      entriesJoin (es ++ [f]) := by
    rw [setupAdd, if_neg (by simp [hne]), if_neg (by simp), htr']
    rfl
  refine ⟨?_, ?_, ?_, ?_⟩
  · rw [setupAdd, if_neg (by simp [hne]), if_neg (by simp), htr]
    rfl
  · rw [hstep, hsplit']
    rw [List.count_append, List.count_append]
    rw [List.count_eq_zero.2 hnotin]
    rw [List.count_singleton]
    rw [List.count_eq_zero.2 (by simpa using (Ne.symm hne ∘ Eq.symm) ∘ List.mem_singleton.1)]
    simp
  · rw [hstep, setupAdd, if_neg (by simp [hne]), if_neg (by simp), htr']
    rfl
  · intro n
    rw [hstep]
    exact Function.iterate_fixed hfix n

theorem c6_staging_idempotent_witness :
    (∀ e ∈ (["old.txt".toList] : List Str), '\n' ∉ e) ∧
    '\n' ∉ ("a.txt".toList : Str) ∧ ("a.txt".toList : Str) ≠ [] ∧
    "a.txt".toList ∉ (["old.txt".toList] : List Str) ∧
    ((setupAdd "a.txt".toList true (entriesJoin ["old.txt".toList])).2 =
        AddResult.tracked ∧
      (splitNL (setupAdd "a.txt".toList true
          (entriesJoin ["old.txt".toList])).1).count "a.txt".toList = 1 ∧
      (setupAdd "a.txt".toList true (setupAdd "a.txt".toList true
          (entriesJoin ["old.txt".toList])).1).2 = AddResult.alreadyTracked ∧
      ∀ n : Nat,
        (fun i => (setupAdd "a.txt".toList true i).1)^[n]
            (setupAdd "a.txt".toList true (entriesJoin ["old.txt".toList])).1 =
          (setupAdd "a.txt".toList true (entriesJoin ["old.txt".toList])).1) :=
  ⟨by decide, by decide, by decide, by decide,
   c6_staging_idempotent ["old.txt".toList] "a.txt".toList
     (by decide) (by decide) (by decide) (by decide)⟩

/- ## C4: change detector -/

theorem fileHasChanges_iff (p cid : Str) (fs : Fs) (hp : lookupFs fs p ≠ none) :
    (fileHasChanges p cid fs = some true ↔ changedAt p cid fs) ∧
    (fileHasChanges p cid fs = some false ↔ ¬ changedAt p cid fs) ∧
    fileHasChanges p cid fs ≠ none := by
  unfold fileHasChanges changedAt counterpartPath
  cases h1 : lookupFs fs (joinPaths [commitDirL, cid, goTrimPrefix commitDirL p]) with
  | none => simp [h1]
  | some s =>
    cases h2 : lookupFs fs p with
    | none => exact absurd h2 hp
    | some cur => simp [h1, h2]

theorem hasChanges_spec (ps : List Str) (cid : Str) (fs : Fs)
    (hex : ∀ p ∈ ps, p ≠ [] → lookupFs fs p ≠ none) :
    (hasChanges ps cid fs = some true ↔ ∃ p ∈ ps, p ≠ [] ∧ changedAt p cid fs) ∧
    (hasChanges ps cid fs = some false ↔
      ∀ p ∈ ps, p ≠ [] → ¬ changedAt p cid fs) := by
  induction ps with
  | nil => simp [hasChanges]
  | cons q ps ih =>
    have hex' : ∀ p ∈ ps, p ≠ [] → lookupFs fs p ≠ none :=
      fun p hp => hex p (List.mem_cons_of_mem q hp)
    obtain ⟨ih1, ih2⟩ := ih hex'
    by_cases hq : q = []
    · subst hq
      simp only [hasChanges, eq_self_iff_true, if_true]
      constructor
      · rw [ih1]
        constructor
        · rintro ⟨p, hp, hpne, hch⟩
          exact ⟨p, List.mem_cons_of_mem [] hp, hpne, hch⟩
        · rintro ⟨p, hp, hpne, hch⟩
          rcases List.mem_cons.1 hp with rfl | hp'
          · exact absurd rfl hpne
          · exact ⟨p, hp', hpne, hch⟩
      · rw [ih2]
        constructor
        · intro hall p hp hpne
          rcases List.mem_cons.1 hp with rfl | hp'
          · exact absurd rfl hpne
          · exact hall p hp' hpne
        · intro hall p hp hpne
          exact hall p (List.mem_cons_of_mem [] hp) hpne
    · obtain ⟨f1, f2, f3⟩ := fileHasChanges_iff q cid fs
        (hex q (List.mem_cons_self q ps) hq)
      simp only [hasChanges, if_neg hq]
      cases hfc : fileHasChanges q cid fs with
      | none => exact absurd hfc f3
      | some b =>
        rw [hfc] at f1 f2
        cases b with
        | true =>
          have hch : changedAt q cid fs := f1.1 rfl
          constructor
          · exact ⟨fun _ => ⟨q, List.mem_cons_self q ps, hq, hch⟩, fun _ => rfl⟩
          · constructor
            · intro h
              exact absurd h (by simp)
            · intro hall
              exact absurd hch (hall q (List.mem_cons_self q ps) hq)
        | false =>
          have hnch : ¬ changedAt q cid fs := f2.1 rfl
          constructor
          · rw [ih1]
            constructor
            · rintro ⟨p, hp, hpne, hch⟩
              exact ⟨p, List.mem_cons_of_mem q hp, hpne, hch⟩
            · rintro ⟨p, hp, hpne, hch⟩
              rcases List.mem_cons.1 hp with rfl | hp'
              · exact absurd hch hnch
              · exact ⟨p, hp', hpne, hch⟩
          · rw [ih2]
            constructor
            · intro hall p hp hpne
              rcases List.mem_cons.1 hp with rfl | hp'
              · exact hnch
              · exact hall p hp' hpne
            · intro hall p hp hpne
              exact hall p (List.mem_cons_of_mem q hp) hpne

theorem not_changed_byteIdentical (p cid : Str) (fs : Fs)
    (hp : lookupFs fs p ≠ none)
    (hinj : ∀ s cur, lookupFs fs (counterpartPath p cid) = some s →
      lookupFs fs p = some cur → hashContent s = hashContent cur → s = cur)
    (h : ¬ changedAt p cid fs) : byteIdenticalAt p cid fs := by
  unfold changedAt at h
  push_neg at h
  obtain ⟨h1, h2⟩ := h
  cases hc : lookupFs fs (counterpartPath p cid) with
  | none => exact absurd hc h1
  | some s =>
    cases hcur : lookupFs fs p with
    | none => exact absurd hcur hp
    | some cur =>
      have heq : hashContent s = hashContent cur := h2 s cur hc hcur
      have hsc := hinj s cur hc hcur heq
      exact ⟨s, hc, by rw [hcur, hsc]⟩

theorem byteIdentical_not_changed (p cid : Str) (fs : Fs)
    (h : byteIdenticalAt p cid fs) : ¬ changedAt p cid fs := by
  obtain ⟨s, h1, h2⟩ := h
  intro hc
  unfold changedAt at hc
  rcases hc with hc | ⟨s', c', hs', hc', hne⟩
  · rw [h1] at hc
    exact Option.noConfusion hc
  · rw [h1] at hs'
    rw [h2] at hc'
    injection hs' with hs'
    injection hc' with hc'
    exact hne (by rw [← hs', ← hc'])

/-- C4: the change detector.  With every staged file readable: it answers
true exactly when there is no last commit (empty identifier) or some staged
path is changed (no counterpart file under the last snapshot, or differing
digests); and — digest comparison standing in for byte comparison, which is
collision-freeness of SHA-256 on the compared pairs, taken as hypothesis —
it answers false exactly when a last commit exists and every staged path is
byte-identical to its counterpart. -/
theorem c4_change_detector (lastId idx : Str) (fs : Fs)
    (hex : ∀ p ∈ splitNL idx, p ≠ [] → lookupFs fs p ≠ none) :
    (compareWithLastCommit lastId idx fs = some true ↔
      lastId = [] ∨ ∃ p ∈ splitNL idx, p ≠ [] ∧ changedAt p lastId fs) ∧
    ((∀ p ∈ splitNL idx, p ≠ [] → ∀ s cur,
        lookupFs fs (counterpartPath p lastId) = some s →
        lookupFs fs p = some cur → hashContent s = hashContent cur → s = cur) →
      (compareWithLastCommit lastId idx fs = some false ↔
        lastId ≠ [] ∧ ∀ p ∈ splitNL idx, p ≠ [] → byteIdenticalAt p lastId fs)) := by
  by_cases hl : lastId = []
  · subst hl
    constructor
    · simp [compareWithLastCommit]
    · intro hinj
      simp [compareWithLastCommit]
  · obtain ⟨h1, h2⟩ := hasChanges_spec (splitNL idx) lastId fs hex
    rw [compareWithLastCommit, if_neg hl]
    refine ⟨?_, ?_⟩
    · rw [h1]
      simp [hl]
    · intro hinj
      rw [h2]
      constructor
      · intro hall
        refine ⟨hl, fun p hp hpne => ?_⟩
        exact not_changed_byteIdentical p lastId fs (hex p hp hpne)
          (hinj p hp hpne) (hall p hp hpne)
      · rintro ⟨-, hall⟩ p hp hpne
        exact byteIdentical_not_changed p lastId fs (hall p hp hpne)

theorem c4_change_detector_witness :
    (∀ p ∈ splitNL "a.txt\n".toList, p ≠ [] →
      lookupFs [("a.txt".toList, "x".toList),
                ("vcs/commits/h/a.txt".toList, "x".toList)] p ≠ none) ∧
    ((compareWithLastCommit "h".toList "a.txt\n".toList
        [("a.txt".toList, "x".toList),
         ("vcs/commits/h/a.txt".toList, "x".toList)] = some true ↔
      "h".toList = [] ∨ ∃ p ∈ splitNL "a.txt\n".toList, p ≠ [] ∧
        changedAt p "h".toList
          [("a.txt".toList, "x".toList),
           ("vcs/commits/h/a.txt".toList, "x".toList)]) ∧
    ((∀ p ∈ splitNL "a.txt\n".toList, p ≠ [] → ∀ s cur,
        lookupFs [("a.txt".toList, "x".toList),
                  ("vcs/commits/h/a.txt".toList, "x".toList)]
            (counterpartPath p "h".toList) = some s →
        lookupFs [("a.txt".toList, "x".toList),
                  ("vcs/commits/h/a.txt".toList, "x".toList)] p = some cur →
        hashContent s = hashContent cur → s = cur) →
      (compareWithLastCommit "h".toList "a.txt\n".toList
          [("a.txt".toList, "x".toList),
           ("vcs/commits/h/a.txt".toList, "x".toList)] = some false ↔
        "h".toList ≠ [] ∧ ∀ p ∈ splitNL "a.txt\n".toList, p ≠ [] →
          byteIdenticalAt p "h".toList
            [("a.txt".toList, "x".toList),
             ("vcs/commits/h/a.txt".toList, "x".toList)]))) :=
  ⟨by decide,
   c4_change_detector "h".toList "a.txt\n".toList
     [("a.txt".toList, "x".toList),
      ("vcs/commits/h/a.txt".toList, "x".toList)] (by decide)⟩

/- ## C10: log entry round-trip through findCommitById -/

theorem getLast?_ne_nl_of_not_mem (s : Str) (h : '\n' ∉ s) :
    s.getLast? ≠ some '\n' := by
  intro hc
  rcases List.mem_getLast?_eq_getLast (Option.mem_def.2 hc) with ⟨hne, heq⟩
  exact h (by rw [heq]; exact List.getLast_mem hne)

theorem noDoubleNL_iff_chain (s : Str) :
    noDoubleNL s ↔ List.Chain' (fun a b => ¬(a = '\n' ∧ b = '\n')) s := by
  unfold noDoubleNL
  induction s with
  | nil => simp [noDoubleNLb]
  | cons a t ih =>
    cases t with
    | nil => simp [noDoubleNLb]
    | cons b u =>
      rw [List.chain'_cons, ← ih]
      simp [noDoubleNLb, and_assoc]
      intro _
      constructor
      · intro h ha
        rcases h with h | h
        · exact absurd ha h
        · exact h
      · intro h
        by_cases ha : a = '\n'
        · exact Or.inr (h ha)
        · exact Or.inl ha

theorem noDoubleNL_of_not_mem (s : Str) (h : '\n' ∉ s) : noDoubleNL s := by
  rw [noDoubleNL_iff_chain]
  induction s with
  | nil => simp
  | cons a t ih =>
    rw [List.chain'_cons']
    refine ⟨?_, ih (fun hm => h (List.mem_cons_of_mem a hm))⟩
    intro y hy hc
    exact h (by rw [← hc.1]; exact List.mem_cons_self a t)

theorem noDoubleNL_append (s t : Str) (hs : noDoubleNL s) (ht : noDoubleNL t)
    (hb : s.getLast? ≠ some '\n' ∨ t.head? ≠ some '\n') :
    noDoubleNL (s ++ t) := by
  rw [noDoubleNL_iff_chain] at hs ht ⊢
  rw [List.chain'_append]
  refine ⟨hs, ht, ?_⟩
  intro x hx y hy hc
  rcases hb with hb | hb
  · exact hb (by rw [← hc.1]; exact Option.mem_def.1 hx)
  · exact hb (by rw [← hc.2]; exact Option.mem_def.1 hy)

theorem noDoubleNL_cons_nl (s : Str) (h : noDoubleNL s)
    (hh : s.head? ≠ some '\n') : noDoubleNL ('\n' :: s) := by
  rw [noDoubleNL_iff_chain] at h ⊢
  rw [List.chain'_cons']
  refine ⟨?_, h⟩
  intro y hy hc
  exact hh (by rw [← hc.2]; exact Option.mem_def.1 hy)

/-- Splitting at the first blank line: a double newline after a block that
contains none and does not end in a newline. -/
theorem splitNN_append (xs ys : Str) (h1 : noDoubleNL xs)
    (h2 : xs.getLast? ≠ some '\n') :
    splitNN (xs ++ '\n' :: '\n' :: ys) = xs :: splitNN ys := by
  rw [noDoubleNL_iff_chain] at h1
  induction xs with
  | nil => simp [splitNN]
  | cons a xs ih =>
    cases xs with
    | nil =>
      have ha : a ≠ '\n' := fun hh => h2 (by rw [hh]; rfl)
      show splitNN (a :: '\n' :: '\n' :: ys) = [a] :: splitNN ys
      simp only [splitNN, and_self, eq_self_iff_true, if_true]
      rw [if_neg (fun hc => ha hc.1)]
    | cons b xs' =>
      have hab : ¬(a = '\n' ∧ b = '\n') := (List.chain'_cons.1 h1).1
      have hrec := ih (List.chain'_cons.1 h1).2
        (by rwa [List.getLast?_cons_cons] at h2)
      rw [List.cons_append] at hrec
      show splitNN (a :: ((b :: xs') ++ '\n' :: '\n' :: ys)) = _
      rw [List.cons_append]
      simp only [splitNN]
      rw [if_neg hab, hrec]

theorem hasPrefix_author_commit (y : Str) :
    goHasPrefix authorPre (commitPre ++ y) = false := by
  simp [authorPre, commitPre, goHasPrefix]

theorem extract_foldl_benign (ls : List Str)
    (hb : ∀ line ∈ ls, goHasPrefix authorPre line = false ∧
      goHasPrefix commitPre line = false) (au : Str) :
    ∀ m, ls.foldl (fun am line =>
      if goHasPrefix authorPre line then (goTrimPrefix authorPre line, am.2)
      else if goHasPrefix commitPre line then am
      else (am.1, am.2 ++ line ++ ['\n'])) (au, m) =
    (au, m ++ (ls.map (fun l => l ++ ['\n'])).flatten) := by
  induction ls with
  | nil => intro m; simp
  | cons l ls ih =>
    intro m
    obtain ⟨ha, hc⟩ := hb l (List.mem_cons_self l ls)
    rw [List.foldl_cons, if_neg (by simp [ha]), if_neg (by simp [hc])]
    rw [ih (fun x hx => hb x (List.mem_cons_of_mem l hx)) (m ++ l ++ ['\n'])]
    simp [List.append_assoc]

theorem extractAuthorMessage_entry (id au msg : Str)
    (hmb : ∀ line ∈ splitNL msg, goHasPrefix authorPre line = false ∧
      goHasPrefix commitPre line = false) :
    extractAuthorMessage
        ((commitPre ++ id) :: (authorPre ++ au) :: splitNL msg) =
      (au, msg ++ ['\n']) := by
  unfold extractAuthorMessage
  rw [List.foldl_cons, if_neg (by simp [hasPrefix_author_commit]),
    if_pos (goHasPrefix_append commitPre id)]
  rw [List.foldl_cons, if_pos (goHasPrefix_append authorPre au)]
  rw [extract_foldl_benign (splitNL msg) hmb _ _]
  rw [goTrimPrefix_append, join_splitNL]
  rfl

theorem findEntry_entry_head (c : Commit) (rest : List Str)
    (hid : '\n' ∉ c.HashID) (hau : '\n' ∉ c.Author)
    (hmb : ∀ line ∈ splitNL c.Message, goHasPrefix authorPre line = false ∧
      goHasPrefix commitPre line = false) :
    findEntry c.HashID
        ((commitPre ++ (c.HashID ++ '\n' ::
          (authorPre ++ (c.Author ++ '\n' :: c.Message)))) :: rest) =
      some ⟨c.HashID, c.Author, goTrimSpace c.Message⟩ := by
  have h1 : '\n' ∉ commitPre ++ c.HashID := by
    intro hm
    rcases List.mem_append.1 hm with hmm | hmm
    · revert hmm; decide
    · exact hid hmm
  have h2 : '\n' ∉ authorPre ++ c.Author := by
    intro hm
    rcases List.mem_append.1 hm with hmm | hmm
    · revert hmm; decide
    · exact hau hmm
  have hxs2 : commitPre ++ (c.HashID ++ '\n' ::
      (authorPre ++ (c.Author ++ '\n' :: c.Message))) =
      (commitPre ++ c.HashID) ++ '\n' ::
        ((authorPre ++ c.Author) ++ '\n' :: c.Message) := by
    simp [List.append_assoc]
  have hlines : splitNL (commitPre ++ (c.HashID ++ '\n' ::
      (authorPre ++ (c.Author ++ '\n' :: c.Message)))) =
      (commitPre ++ c.HashID) :: (authorPre ++ c.Author) :: splitNL c.Message := by
    rw [hxs2, splitNL_append _ _ h1, splitNL_append _ _ h2]
  simp only [findEntry, hlines, List.headD_cons]
  rw [goTrimPrefix_append, if_pos rfl,
    extractAuthorMessage_entry c.HashID c.Author c.Message hmb,
    goTrimSpace_append_nl]

/-- C10 counterexample: the message "hello\n\nworld" satisfies the claim's
benignity condition (no line begins with "Author: " or "commit ") and the
snapshot directory exists, yet the round trip returns the truncated message
"hello", not the whitespace-trimmed original. -/
theorem c10_counterexample :
    (∀ line ∈ splitNL "hello\n\nworld".toList,
        goHasPrefix authorPre line = false ∧
        goHasPrefix commitPre line = false) ∧
    ("abc".toList ∈ (["abc".toList] : List Str)) ∧
    findCommitById "abc".toList ["abc".toList]
        (some (createLog
          ⟨"abc".toList, "alice".toList, "hello\n\nworld".toList⟩ none)) =
      some (some ⟨"abc".toList, "alice".toList, "hello".toList⟩) ∧
    goTrimSpace "hello\n\nworld".toList ≠ "hello".toList :=
  ⟨by decide, by decide, by decide, by decide⟩

/-- C10 amended: the round trip holds for genuinely benign messages: besides
no message line beginning with "Author: " or "commit ", the message must be
nonempty, contain no two consecutive newlines (no blank line), and neither
start nor end with a newline; identifier and author are newline-free and the
snapshot directory exists.  Then createLog followed by findCommitById
returns the same identifier, the same author, and the whitespace-trimmed
message.  (A message line beginning with "Author: " would instead be parsed
as the author field, as the counterexample family shows.) -/
theorem c10_amended_log_roundtrip (c : Commit) (dirs : List Str)
    (oldLog : Option Str) (hdir : c.HashID ∈ dirs)
    (hid : '\n' ∉ c.HashID) (hau : '\n' ∉ c.Author)
    (hm0 : c.Message ≠ []) (hmh : c.Message.head? ≠ some '\n')
    (hml : c.Message.getLast? ≠ some '\n') (hmd : noDoubleNL c.Message)
    (hmb : ∀ line ∈ splitNL c.Message, goHasPrefix authorPre line = false ∧
      goHasPrefix commitPre line = false) :
    findCommitById c.HashID dirs (some (createLog c oldLog)) =
      some (some ⟨c.HashID, c.Author, goTrimSpace c.Message⟩) := by
  have hnlc : ('\n' : Char) ∉ commitPre := by decide
  have hnla : ('\n' : Char) ∉ authorPre := by decide
  have hce : createLog c oldLog =
      (commitPre ++ (c.HashID ++ '\n' ::
        (authorPre ++ (c.Author ++ '\n' :: c.Message)))) ++
        '\n' :: '\n' :: oldLog.getD [] := by
    simp [createLog, commitEntry, List.append_assoc]
  have hmsgD : noDoubleNL ('\n' :: c.Message) := noDoubleNL_cons_nl _ hmd hmh
  have hAu : noDoubleNL (c.Author ++ '\n' :: c.Message) :=
    noDoubleNL_append _ _ (noDoubleNL_of_not_mem _ hau) hmsgD
      (Or.inl (getLast?_ne_nl_of_not_mem _ hau))
  have hApre : noDoubleNL (authorPre ++ (c.Author ++ '\n' :: c.Message)) :=
    noDoubleNL_append _ _ (noDoubleNL_of_not_mem _ hnla) hAu
      (Or.inl (getLast?_ne_nl_of_not_mem _ hnla))
  have hnl1 : noDoubleNL ('\n' ::
      (authorPre ++ (c.Author ++ '\n' :: c.Message))) :=
    noDoubleNL_cons_nl _ hApre (by simp [authorPre])
  have hId : noDoubleNL (c.HashID ++ '\n' ::
      (authorPre ++ (c.Author ++ '\n' :: c.Message))) :=
    noDoubleNL_append _ _ (noDoubleNL_of_not_mem _ hid) hnl1
      (Or.inl (getLast?_ne_nl_of_not_mem _ hid))
  have hxs : noDoubleNL (commitPre ++ (c.HashID ++ '\n' ::
      (authorPre ++ (c.Author ++ '\n' :: c.Message)))) :=
    noDoubleNL_append _ _ (noDoubleNL_of_not_mem _ hnlc) hId
      (Or.inl (getLast?_ne_nl_of_not_mem _ hnlc))
  have hxl : (commitPre ++ (c.HashID ++ '\n' ::
      (authorPre ++ (c.Author ++ '\n' :: c.Message)))).getLast? ≠ some '\n' := by
    rw [List.getLast?_append_of_ne_nil _ (by simp),
      List.getLast?_append_of_ne_nil _ (by simp)]
    rw [show ('\n' :: (authorPre ++ (c.Author ++ '\n' :: c.Message))) =
      ['\n'] ++ (authorPre ++ (c.Author ++ '\n' :: c.Message)) from rfl]
    rw [List.getLast?_append_of_ne_nil _ (by simp [authorPre]),
      List.getLast?_append_of_ne_nil _ (by simp),
      List.getLast?_append_of_ne_nil _ (by simp)]
    rw [show ('\n' :: c.Message) = ['\n'] ++ c.Message from rfl,
      List.getLast?_append_of_ne_nil _ hm0]
    exact hml
  have hsplit := splitNN_append _ (oldLog.getD []) hxs hxl
  unfold findCommitById
  rw [if_pos hdir]
  show some (findEntry c.HashID (splitNN (createLog c oldLog))) = _
  rw [hce, hsplit, findEntry_entry_head c _ hid hau hmb]

theorem c10_amended_log_roundtrip_witness :
    ("ab".toList ∈ (["ab".toList] : List Str)) ∧
    '\n' ∉ ("ab".toList : Str) ∧ '\n' ∉ ("al".toList : Str) ∧
    ("hi\nthere".toList : Str) ≠ [] ∧
    ("hi\nthere".toList : Str).head? ≠ some '\n' ∧
    ("hi\nthere".toList : Str).getLast? ≠ some '\n' ∧
    noDoubleNL "hi\nthere".toList ∧
    (∀ line ∈ splitNL "hi\nthere".toList,
      goHasPrefix authorPre line = false ∧
      goHasPrefix commitPre line = false) ∧
    findCommitById "ab".toList ["ab".toList]
        (some (createLog ⟨"ab".toList, "al".toList, "hi\nthere".toList⟩ none)) =
      some (some ⟨"ab".toList, "al".toList,
        goTrimSpace "hi\nthere".toList⟩) :=
  ⟨by decide, by decide, by decide, by decide, by decide, by decide, by decide,
   by decide,
   c10_amended_log_roundtrip ⟨"ab".toList, "al".toList, "hi\nthere".toList⟩
     ["ab".toList] none (by decide) (by decide) (by decide) (by decide)
     (by decide) (by decide) (by decide) (by decide)⟩

end SVCS

